import Mathlib

/-!
Verification of the `welford` Go package (src/welford.go): an online
(Welford) mean/variance aggregator and a lock-wrapping concurrent variant.

Embedding choices:
* Go `float64` values are modelled as exact rationals (`ℚ`): the spec's
  claims about the numeric behaviour are stated "under ideal (exact)
  arithmetic".
* Go `int` is modelled as `Int` (overflow of the observation counter is
  out of scope for every claim).
* Variadic `Update(...float64)` is modelled as taking a `List ℚ`.
* The `sync.RWMutex` of `ConcurrentAggregate` has no influence on the
  sequential state transformation of any single operation; the wrapper is
  modelled as the record it is in the source, with the lock field elided
  (it carries no numeric state), and each method delegating exactly as the
  source does after lock acquisition/release.
-/

namespace Welford

/-- The `Aggregate` struct of src/welford.go: running count, mean and
sum of squared deviations (Welford's M2). -/
structure Aggregate where
  count : Int
  mean  : ℚ
  m2    : ℚ
  deriving Repr, DecidableEq

/-- `NewAggregate` returns the Go zero value `&Aggregate{}`. -/
def NewAggregate : Aggregate := { count := 0, mean := 0, m2 := 0 }

/-- `(A *Aggregate) Reset()` sets count, mean and m2 to zero. -/
def Aggregate.Reset (_A : Aggregate) : Aggregate :=
  { count := 0, mean := 0, m2 := 0 }

/-- The unexported `(A *Aggregate) update(Value float64)`:
`count++; Delta := Value - mean; mean += Delta / count;
Delta2 := Value - mean; m2 += Delta * Delta2`. -/
def Aggregate.update (A : Aggregate) (Value : ℚ) : Aggregate :=
  let count := A.count + 1
  let Delta := Value - A.mean
  let mean := A.mean + Delta / (count : ℚ)
  let Delta2 := Value - mean
  { count := count, mean := mean, m2 := A.m2 + Delta * Delta2 }

/-- `(A *Aggregate) Update(Values ...float64)`: folds `update` over the
values in the order given. -/
def Aggregate.Update (A : Aggregate) (Values : List ℚ) : Aggregate :=
  Values.foldl Aggregate.update A

/-- `(A *Aggregate) Count()` returns the `count` field. -/
def Aggregate.Count (A : Aggregate) : Int := A.count

/-- `(A *Aggregate) Mean()` returns the `mean` field. -/
def Aggregate.Mean (A : Aggregate) : ℚ := A.mean

/-- `(A *Aggregate) Variance()`: `0` when `count == 0`, else `m2 / count`. -/
def Aggregate.Variance (A : Aggregate) : ℚ :=
  if A.count = 0 then 0 else A.m2 / (A.count : ℚ)

/-- `(A *Aggregate) SampleVariance()`: `0` when `count <= 1`, else
`m2 / (count - 1)`. -/
def Aggregate.SampleVariance (A : Aggregate) : ℚ :=
  if A.count ≤ 1 then 0 else A.m2 / ((A.count - 1 : Int) : ℚ)

/-- `(A *Aggregate) Results()` returns
`(A.Count(), A.Mean(), A.Variance(), A.SampleVariance())`. -/
def Aggregate.Results (A : Aggregate) : Int × ℚ × ℚ × ℚ :=
  (A.Count, A.Mean, A.Variance, A.SampleVariance)

/-- Fixed-point decimal rendering standing in for Go's `%f` verb
(six digits after the decimal point). -/
def sprintfFloat (q : ℚ) : String :=
  let n : Int := round (q * 1000000)
  let sign := if n < 0 then "-" else ""
  let m := n.natAbs
  let frac := toString (m % 1000000)
  let pad := String.mk (List.replicate (6 - frac.length) '0')
  sign ++ toString (m / 1000000) ++ "." ++ pad ++ frac

/-- `(A *Aggregate) String()`: formats the `Results()` tuple as
`Count: %d, Mean: %f, Variance: %f, Sample Variance: %f`. -/
def Aggregate.String (A : Aggregate) : String :=
  let r := A.Results
  "Count: " ++ toString r.1 ++ ", Mean: " ++ sprintfFloat r.2.1 ++
    ", Variance: " ++ sprintfFloat r.2.2.1 ++
    ", Sample Variance: " ++ sprintfFloat r.2.2.2

/-- The `ConcurrentAggregate` struct: an embedded `Aggregate` plus an
`*sync.RWMutex`, the latter elided (no numeric state). -/
structure ConcurrentAggregate where
  agg : Aggregate
  deriving Repr, DecidableEq

/-- `NewConcurrentAggregate` returns a zero-valued wrapped aggregate
(with a fresh lock, elided here). -/
def NewConcurrentAggregate : ConcurrentAggregate := { agg := NewAggregate }

/-- `(A *ConcurrentAggregate) Reset()`: takes the write lock, delegates
to the embedded `Aggregate.Reset`. -/
def ConcurrentAggregate.Reset (A : ConcurrentAggregate) : ConcurrentAggregate :=
  { agg := A.agg.Reset }

/-- `(A *ConcurrentAggregate) Update(Values ...float64)`: takes the write
lock, delegates to the embedded `Aggregate.Update`. -/
def ConcurrentAggregate.Update (A : ConcurrentAggregate) (Values : List ℚ) :
    ConcurrentAggregate :=
  { agg := A.agg.Update Values }

/-- The embedded `Aggregate.Count` is promoted unchanged in the source
(no override takes the read lock for it). -/
def ConcurrentAggregate.Count (A : ConcurrentAggregate) : Int := A.agg.Count

/-- The embedded `Aggregate.Mean` is promoted unchanged in the source. -/
def ConcurrentAggregate.Mean (A : ConcurrentAggregate) : ℚ := A.agg.Mean

/-- `(A *ConcurrentAggregate) Variance()`: takes the read lock, delegates. -/
def ConcurrentAggregate.Variance (A : ConcurrentAggregate) : ℚ :=
  A.agg.Variance

/-- `(A *ConcurrentAggregate) SampleVariance()`: takes the read lock,
delegates. -/
def ConcurrentAggregate.SampleVariance (A : ConcurrentAggregate) : ℚ :=
  A.agg.SampleVariance

/-- `(A *ConcurrentAggregate) Results()`: takes the read lock, delegates. -/
def ConcurrentAggregate.Results (A : ConcurrentAggregate) : Int × ℚ × ℚ × ℚ :=
  A.agg.Results

/-- `(A *ConcurrentAggregate) String()`: formats its own `Results()` with
the same format string as `Aggregate.String`. -/
def ConcurrentAggregate.String (A : ConcurrentAggregate) : String :=
  let r := A.Results
  "Count: " ++ toString r.1 ++ ", Mean: " ++ sprintfFloat r.2.1 ++
    ", Variance: " ++ sprintfFloat r.2.2.1 ++
    ", Sample Variance: " ++ sprintfFloat r.2.2.2

/-- The five-step Welford recurrence exactly as the spec numbers it
(step 1: `count += 1`; step 2: `delta = v - mean`; step 3:
`mean += delta / count`; step 4: `delta2 = v - mean` recomputed; step 5:
`m2 += delta * delta2`), written from the spec's words for comparison
with `Aggregate.update`. -/
def specWelfordStep (A : Aggregate) (v : ℚ) : Aggregate :=
  let count := A.count + 1
  let delta := v - A.mean
  let mean := A.mean + delta / (count : ℚ)
  let delta2 := v - mean
  { count := count, mean := mean, m2 := A.m2 + delta * delta2 }

/-- A single operation on the mutable state of an `Aggregate`: the two
mutators of the public surface (queries do not change the state). -/
inductive Op where
  | reset : Op
  | updateOp : List ℚ → Op

/-- Apply one operation to an `Aggregate`. -/
def applyOp (A : Aggregate) : Op → Aggregate
  | .reset => A.Reset
  | .updateOp vs => A.Update vs

/-- The state reached from `NewAggregate` by a sequence of operations. -/
def run (ops : List Op) : Aggregate := ops.foldl applyOp NewAggregate

/-- The spec's invariant on the sufficient statistics:
`count >= 0` and `m2 >= 0`. -/
def Inv (A : Aggregate) : Prop := 0 ≤ A.count ∧ 0 ≤ A.m2

instance : DecidablePred Inv := fun A => by
  unfold Inv; infer_instance

/- Helper lemmas -/

theorem update_count_succ (A : Aggregate) (v : ℚ) :
    (A.update v).count = A.count + 1 := rfl

theorem Update_count_add (vs : List ℚ) (A : Aggregate) :
    (A.Update vs).count = A.count + vs.length := by
  induction vs generalizing A with
  | nil => simp [Aggregate.Update]
  | cons v vs ih =>
      show ((A.update v).Update vs).count = _
      rw [ih, update_count_succ]
      simp only [List.length_cons]
      push_cast
      ring

theorem update_mean_mul (A : Aggregate) (v : ℚ) (h : 0 ≤ A.count) :
    (A.update v).mean * ((A.count : ℚ) + 1) = A.mean * (A.count : ℚ) + v := by
  have h0 : (0 : ℚ) ≤ (A.count : ℚ) := by exact_mod_cast h
  have hc : ((A.count : ℚ) + 1) ≠ 0 := by positivity
  simp only [Aggregate.update]
  push_cast
  field_simp
  ring

theorem Update_mean_mul (vs : List ℚ) (A : Aggregate) (h : 0 ≤ A.count) :
    (A.Update vs).mean * ((A.count : ℚ) + (vs.length : ℚ)) =
      A.mean * (A.count : ℚ) + vs.sum := by
  induction vs generalizing A with
  | nil => simp [Aggregate.Update]
  | cons v vs ih =>
      show ((A.update v).Update vs).mean * _ = _
      have h1 : 0 ≤ (A.update v).count := by
        rw [update_count_succ]; omega
      have ih1 := ih (A.update v) h1
      rw [update_count_succ] at ih1
      simp only [List.length_cons, List.sum_cons]
      push_cast at ih1 ⊢
      have harr : (A.count : ℚ) + (↑vs.length + 1) = (A.count : ℚ) + 1 + ↑vs.length := by
        ring
      rw [harr, ih1, update_mean_mul A v h]
      ring

theorem update_m2_eq (A : Aggregate) (v : ℚ) (h : 0 ≤ A.count) :
    (A.update v).m2 =
      A.m2 + (v - A.mean) ^ 2 * (A.count : ℚ) / ((A.count : ℚ) + 1) := by
  have h0 : (0 : ℚ) ≤ (A.count : ℚ) := by exact_mod_cast h
  have hc : ((A.count : ℚ) + 1) ≠ 0 := by positivity
  simp only [Aggregate.update]
  push_cast
  field_simp
  ring

theorem update_preserves_Inv (A : Aggregate) (v : ℚ) (h : Inv A) :
    Inv (A.update v) := by
  obtain ⟨hc, hm⟩ := h
  constructor
  · rw [update_count_succ]; omega
  · rw [update_m2_eq A v hc]
    have h0 : (0 : ℚ) ≤ (A.count : ℚ) := by exact_mod_cast hc
    have : (0 : ℚ) ≤ (v - A.mean) ^ 2 * (A.count : ℚ) / ((A.count : ℚ) + 1) := by
      positivity
    linarith

theorem Update_preserves_Inv (vs : List ℚ) (A : Aggregate) (h : Inv A) :
    Inv (A.Update vs) := by
  induction vs generalizing A with
  | nil => exact h
  | cons v vs ih => exact ih (A.update v) (update_preserves_Inv A v h)

theorem Inv_new : Inv NewAggregate := ⟨le_refl 0, le_refl 0⟩

theorem Inv_reset (A : Aggregate) : Inv A.Reset := ⟨le_refl 0, le_refl 0⟩

theorem sum_map_length_const (M : ℕ) :
    ∀ schedule : List (List ℚ), (∀ b ∈ schedule, b.length = M) →
      (schedule.map List.length).sum = schedule.length * M := by
  intro schedule
  induction schedule with
  | nil => intro _; simp
  | cons b bs ih =>
      intro h
      have hb : b.length = M := h b (List.mem_cons_self b bs)
      have hbs : ∀ c ∈ bs, c.length = M := fun c hc => h c (List.mem_cons_of_mem b hc)
      simp [hb, ih hbs, Nat.succ_mul, Nat.add_comm]

/- Claim theorems -/

/-- C1: a single-value `update` performs exactly the five-step Welford
recurrence of the spec (count incremented, `delta = v - old mean`,
`mean += delta / new count`, `delta2 = v - new mean`,
`m2 += delta * delta2`), and the batched `Update` applies that recurrence
to each value in the order given (a left fold). -/
theorem update_is_welford_recurrence (A : Aggregate) (v : ℚ) :
    A.update v = specWelfordStep A v ∧
    (A.update v).count = A.count + 1 ∧
    (A.update v).mean = A.mean + (v - A.mean) / (((A.count + 1 : Int)) : ℚ) ∧
    (A.update v).m2 = A.m2 + (v - A.mean) * (v - (A.update v).mean) ∧
    ∀ Values : List ℚ, A.Update Values = Values.foldl Aggregate.update A :=
  ⟨rfl, rfl, rfl, rfl, fun _ => rfl⟩

/-- C2: under exact arithmetic, after folding any non-empty list of
observations into a fresh aggregate, `Mean()` is the arithmetic mean of
the list, and any permutation of the submission order yields the same
mean. -/
theorem mean_is_arithmetic_mean (vs ws : List ℚ) (h : vs ≠ [])
    (hp : vs.Perm ws) :
    (NewAggregate.Update vs).Mean = vs.sum / (vs.length : ℚ) ∧
    (NewAggregate.Update ws).Mean = (NewAggregate.Update vs).Mean := by
  have key : ∀ us : List ℚ, us ≠ [] →
      (NewAggregate.Update us).Mean = us.sum / (us.length : ℚ) := by
    intro us hus
    have hm := Update_mean_mul us NewAggregate (le_refl 0)
    have hcount : ((NewAggregate.count : Int) : ℚ) = 0 := rfl
    have hmean : NewAggregate.mean = 0 := rfl
    rw [hcount, hmean, zero_add, zero_mul, zero_add] at hm
    have hl : (us.length : ℚ) ≠ 0 :=
      Nat.cast_ne_zero.mpr (List.length_pos.mpr hus).ne'
    show (NewAggregate.Update us).mean = _
    rw [eq_div_iff hl]
    exact hm
  have h2 : ws ≠ [] := by
    intro hw
    exact h (List.Perm.eq_nil (hw ▸ hp))
  refine ⟨key vs h, ?_⟩
  rw [key vs h, key ws h2, hp.sum_eq, hp.length_eq]

/-- Witness for C2 at `vs = [2, 4]`, `ws = [4, 2]`. -/
theorem mean_is_arithmetic_mean_witness :
    (NewAggregate.Update [(2 : ℚ), 4]).Mean =
      ([(2 : ℚ), 4].sum) / (([(2 : ℚ), 4].length : ℚ)) ∧
    (NewAggregate.Update [(4 : ℚ), 2]).Mean =
      (NewAggregate.Update [(2 : ℚ), 4]).Mean :=
  mean_is_arithmetic_mean [(2 : ℚ), 4] [(4 : ℚ), 2] (by decide) (by decide)

/-- C3: `Variance()` is total: it returns `m2 / count` when `count > 0`
and `0` when `count == 0`; being a pure function of the state, it leaves
the state unchanged by construction. -/
theorem variance_total (A : Aggregate) :
    (0 < A.count → A.Variance = A.m2 / (A.count : ℚ)) ∧
    (A.count = 0 → A.Variance = 0) := by
  constructor
  · intro h
    simp [Aggregate.Variance, h.ne']
  · intro h
    simp [Aggregate.Variance, h]

/-- Witness for C3: a two-observation state and the empty state. -/
theorem variance_total_witness :
    (Aggregate.Variance ⟨2, 3, 8⟩ = (8 : ℚ) / ((2 : Int) : ℚ)) ∧
    (Aggregate.Variance ⟨0, 0, 0⟩ = 0) :=
  ⟨(variance_total ⟨2, 3, 8⟩).1 (by decide),
   (variance_total ⟨0, 0, 0⟩).2 rfl⟩

/-- C4: `SampleVariance()` is total: it returns `m2 / (count - 1)` when
`count > 1` and `0` when `count <= 1`; in particular a state holding
exactly one observation yields `0`; being a pure function of the state,
it leaves the state unchanged by construction. -/
theorem sampleVariance_total (A : Aggregate) :
    (1 < A.count → A.SampleVariance = A.m2 / (((A.count - 1 : Int)) : ℚ)) ∧
    (A.count ≤ 1 → A.SampleVariance = 0) ∧
    (A.count = 1 → A.SampleVariance = 0) := by
  refine ⟨?_, ?_, ?_⟩
  · intro h
    simp [Aggregate.SampleVariance, not_le.mpr h]
  · intro h
    simp [Aggregate.SampleVariance, h]
  · intro h
    simp [Aggregate.SampleVariance, h]

/-- Witness for C4: a three-observation state, a one-observation state. -/
theorem sampleVariance_total_witness :
    (Aggregate.SampleVariance ⟨3, 2, 8⟩ = (8 : ℚ) / (((3 - 1 : Int)) : ℚ)) ∧
    (Aggregate.SampleVariance ⟨1, 5, 0⟩ = 0) :=
  ⟨(sampleVariance_total ⟨3, 2, 8⟩).1 (by decide),
   (sampleVariance_total ⟨1, 5, 0⟩).2.2 rfl⟩

/-- C5: starting from a fresh aggregate, after any sequence of `Update`
calls (each carrying a possibly-empty batch of values), `Count()` is
exactly the total number of values submitted across all the calls. -/
theorem count_equals_total_submitted (batches : List (List ℚ)) :
    (batches.foldl Aggregate.Update NewAggregate).Count =
      (((batches.map List.length).sum : ℕ) : Int) := by
  suffices h : ∀ A : Aggregate,
      (batches.foldl Aggregate.Update A).Count =
        A.count + (((batches.map List.length).sum : ℕ) : Int) by
    simpa [NewAggregate] using h NewAggregate
  induction batches with
  | nil => intro A; simp [Aggregate.Count]
  | cons b bs ih =>
      intro A
      show (bs.foldl Aggregate.Update (A.Update b)).Count = _
      rw [ih (A.Update b)]
      show (A.Update b).count + _ = _
      rw [Update_count_add]
      simp only [List.map_cons, List.sum_cons]
      push_cast
      ring

/-- C6: `Reset()` sends every state to count=0, mean=0, m2=0 — the state
of a freshly created aggregate — so all four accessors return 0. -/
theorem reset_restores_empty (A : Aggregate) :
    A.Reset = NewAggregate ∧ A.Reset.Count = 0 ∧ A.Reset.Mean = 0 ∧
    A.Reset.Variance = 0 ∧ A.Reset.SampleVariance = 0 :=
  ⟨rfl, rfl, rfl, rfl, rfl⟩

/-- C7: the invariant `count >= 0 ∧ m2 >= 0` holds for a fresh aggregate,
is preserved by `update`, `Update` and `Reset` (queries do not touch the
state), and therefore holds at every state reachable from `NewAggregate`
by a sequence of operations. -/
theorem invariant_count_m2_nonneg :
    Inv NewAggregate ∧
    (∀ A : Aggregate, Inv A.Reset) ∧
    (∀ (A : Aggregate) (v : ℚ), Inv A → Inv (A.update v)) ∧
    (∀ (A : Aggregate) (vs : List ℚ), Inv A → Inv (A.Update vs)) ∧
    (∀ ops : List Op, Inv (run ops)) := by
  refine ⟨Inv_new, Inv_reset, update_preserves_Inv, ?_, ?_⟩
  · intro A vs h
    exact Update_preserves_Inv vs A h
  · intro ops
    suffices h : ∀ A : Aggregate, Inv A → Inv (ops.foldl applyOp A) from
      h NewAggregate Inv_new
    induction ops with
    | nil => intro A h; exact h
    | cons op ops ih =>
        intro A h
        refine ih (applyOp A op) ?_
        cases op with
        | reset => exact Inv_reset A
        | updateOp vs => exact Update_preserves_Inv vs A h

/-- Witness for C7: the invariant survives a concrete `update` and a
concrete batched `Update`. -/
theorem invariant_count_m2_nonneg_witness :
    Inv (Aggregate.update ⟨1, 2, 3⟩ 5) ∧
    Inv (Aggregate.Update ⟨0, 0, 0⟩ [1, 2]) :=
  ⟨invariant_count_m2_nonneg.2.2.1 ⟨1, 2, 3⟩ 5 (by constructor <;> norm_num),
   invariant_count_m2_nonneg.2.2.2.1 ⟨0, 0, 0⟩ [1, 2]
     (by constructor <;> norm_num)⟩

/-- C8: every public operation of `ConcurrentAggregate` delegates to the
wrapped `Aggregate` and produces exactly the same numeric result and the
same resulting wrapped state as the plain operation (the lock, elided in
this sequential model, adds no numeric behavior). -/
theorem concurrent_delegates_exactly (C : ConcurrentAggregate)
    (vs : List ℚ) :
    (C.Update vs).agg = C.agg.Update vs ∧
    C.Reset.agg = C.agg.Reset ∧
    C.Count = C.agg.Count ∧
    C.Mean = C.agg.Mean ∧
    C.Variance = C.agg.Variance ∧
    C.SampleVariance = C.agg.SampleVariance ∧
    C.Results = C.agg.Results ∧
    C.String = C.agg.String ∧
    NewConcurrentAggregate.agg = NewAggregate :=
  ⟨rfl, rfl, rfl, rfl, rfl, rfl, rfl, rfl, rfl⟩

/-- C9: since `ConcurrentAggregate.Update` holds the exclusive lock for
the whole five-step state change, any concurrent execution is equivalent
to some serialized schedule of whole `Update` calls; for every such
schedule the final count is the total number of submitted values, and in
particular, for `N` writers each submitting a batch of `M` values,
`Count()` is exactly `N * M` — no update is lost. -/
theorem concurrent_count_no_lost_updates :
    (∀ schedule : List (List ℚ),
      (schedule.foldl ConcurrentAggregate.Update NewConcurrentAggregate).Count =
        (((schedule.map List.length).sum : ℕ) : Int)) ∧
    (∀ (N M : ℕ) (schedule : List (List ℚ)),
      schedule.length = N → (∀ b ∈ schedule, b.length = M) →
      (schedule.foldl ConcurrentAggregate.Update NewConcurrentAggregate).Count =
        ((N * M : ℕ) : Int)) := by
  have general : ∀ schedule : List (List ℚ),
      (schedule.foldl ConcurrentAggregate.Update NewConcurrentAggregate).Count =
        (((schedule.map List.length).sum : ℕ) : Int) := by
    intro schedule
    suffices h : ∀ C : ConcurrentAggregate,
        (schedule.foldl ConcurrentAggregate.Update C).Count =
          C.agg.count + (((schedule.map List.length).sum : ℕ) : Int) by
      simpa [NewConcurrentAggregate, NewAggregate] using
        h NewConcurrentAggregate
    induction schedule with
    | nil => intro C; simp [ConcurrentAggregate.Count, Aggregate.Count]
    | cons b bs ih =>
        intro C
        show (bs.foldl ConcurrentAggregate.Update (C.Update b)).Count = _
        rw [ih (C.Update b)]
        show (C.agg.Update b).count + _ = _
        rw [Update_count_add]
        simp only [List.map_cons, List.sum_cons]
        push_cast
        ring
  refine ⟨general, ?_⟩
  intro N M schedule hN hM
  rw [general schedule, sum_map_length_const M schedule hM, hN]

/-- Witness for C9: two writers each submitting a batch of three values. -/
theorem concurrent_count_no_lost_updates_witness :
    (([[(1 : ℚ), 2, 3], [4, 5, 6]]).foldl ConcurrentAggregate.Update
      NewConcurrentAggregate).Count = ((2 * 3 : ℕ) : Int) :=
  concurrent_count_no_lost_updates.2 2 3 [[(1 : ℚ), 2, 3], [4, 5, 6]]
    (by decide) (by decide)

/-- C10: `Update` with an empty batch is accepted and is the identity on
the aggregate state. -/
theorem update_empty_batch_is_identity (A : Aggregate) :
    A.Update [] = A := rfl

/- Sanity check against the spec's concrete scenario:
updating with [2, 4, 4, 4, 5, 5, 7, 9] gives count=8, mean=5,
population variance=4, sample variance=32/7. -/
example :
    (NewAggregate.Update [2, 4, 4, 4, 5, 5, 7, 9]).Results =
      (8, 5, 4, 32 / 7) := by
  norm_num [NewAggregate, Aggregate.Update, Aggregate.update,
    Aggregate.Results, Aggregate.Count, Aggregate.Mean, Aggregate.Variance,
    Aggregate.SampleVariance, List.foldl]

end Welford
